import Mathlib

/-!
Verification development for the `r3dy` directory-tree file renamer
(`src/main.rs`).

The program is embedded shallowly:

* OS-string path components are byte lists (`List Nat`), and a path is the
  list of its components relative to the filesystem root entry
  (`FPath`).  This mirrors how the Rust code builds paths: `read_dir`
  entry names joined onto the parent path.
* The filesystem tree seen by `collect_files` is an inductive `Node`,
  classifying each entry exactly the way the code's
  `fs::symlink_metadata` / `fs::read_dir` / `fs::metadata` calls do,
  with every fallible call's error branch represented.
* `collect_files` is the explicit work-list ("stack") traversal of
  `src/main.rs` lines 118-167, `has_extension` its helper (lines
  169-174), including Rust's `Path::extension` splitting rule,
  `OsStr::to_str` UTF-8 validation and `str::eq_ignore_ascii_case`.
* The rename executor (`run`, lines 53-108) is a fold over the candidate
  list threading an abstract filesystem state (`FsState`), with rename
  failures injected by an oracle, exactly mirroring the `target.exists()`
  check, the `fs::rename` match, per-iteration progress advancement and
  the failure accounting.
* Argument handling (`Config::from_env`, lines 187-245) is a fold over
  the argument list plus an environment oracle for `current_dir`,
  `metadata` and `canonicalize`.
-/

/-- A path component (OS-string file name) as its byte sequence. -/
abbrev Bytes := List Nat

/-- A filesystem path: the list of its components. -/
abbrev FPath := List Bytes

/-! ### Byte-level string helpers used by `has_extension` -/

/-- Rust `u8::to_ascii_lowercase`: fold `A`..`Z` (65..90) to lower case. -/
def asciiLower (b : Nat) : Nat := if 65 ≤ b ∧ b ≤ 90 then b + 32 else b

/-- Rust `str::eq_ignore_ascii_case`, byte-wise over the UTF-8 bytes. -/
def eqIgnoreAsciiCase : Bytes → Bytes → Bool
  | [], [] => true
  | a :: as, b :: bs => asciiLower a == asciiLower b && eqIgnoreAsciiCase as bs
  | _, _ => false

/-- A UTF-8 continuation byte (`0x80`..`0xBF`). -/
def utf8Cont (b : Nat) : Bool := decide (128 ≤ b) && decide (b ≤ 191)

/-- UTF-8 validity of a byte sequence (RFC 3629, Unicode Table 3-7);
this is the check behind Rust's `OsStr::to_str` succeeding. -/
def isValidUtf8 : Bytes → Bool
  | [] => true
  | b :: rest =>
    if b ≤ 127 then isValidUtf8 rest
    else if 194 ≤ b ∧ b ≤ 223 then
      match rest with
      | c1 :: r => utf8Cont c1 && isValidUtf8 r
      | [] => false
    else if b = 224 then
      match rest with
      | c1 :: c2 :: r =>
        (decide (160 ≤ c1) && decide (c1 ≤ 191)) && utf8Cont c2 && isValidUtf8 r
      | _ => false
    else if 225 ≤ b ∧ b ≤ 236 then
      match rest with
      | c1 :: c2 :: r => utf8Cont c1 && utf8Cont c2 && isValidUtf8 r
      | _ => false
    else if b = 237 then
      match rest with
      | c1 :: c2 :: r =>
        (decide (128 ≤ c1) && decide (c1 ≤ 159)) && utf8Cont c2 && isValidUtf8 r
      | _ => false
    else if 238 ≤ b ∧ b ≤ 239 then
      match rest with
      | c1 :: c2 :: r => utf8Cont c1 && utf8Cont c2 && isValidUtf8 r
      | _ => false
    else if b = 240 then
      match rest with
      | c1 :: c2 :: c3 :: r =>
        (decide (144 ≤ c1) && decide (c1 ≤ 191)) && utf8Cont c2 && utf8Cont c3 &&
          isValidUtf8 r
      | _ => false
    else if 241 ≤ b ∧ b ≤ 243 then
      match rest with
      | c1 :: c2 :: c3 :: r => utf8Cont c1 && utf8Cont c2 && utf8Cont c3 && isValidUtf8 r
      | _ => false
    else if b = 244 then
      match rest with
      | c1 :: c2 :: c3 :: r =>
        (decide (128 ≤ c1) && decide (c1 ≤ 143)) && utf8Cont c2 && utf8Cont c3 &&
          isValidUtf8 r
      | _ => false
    else false

/-! ### Rust `Path` extension splitting -/

/-- Split a byte list at its last `.` (byte 46), if any: returns
`(before, after)`.  Helper for Rust's `split_file_at_dot`, which runs this
on the file name minus its first byte. -/
def splitLastDot : Bytes → Option (Bytes × Bytes)
  | [] => none
  | b :: rest =>
    match splitLastDot rest with
    | some (s, e) => some (b :: s, e)
    | none => if b = 46 then some ([], rest) else none

/-- Rust `split_file_at_dot` on a file name: the name `..` has no
extension, a leading dot is ignored, otherwise split at the last dot. -/
def fileSplit (name : Bytes) : Bytes × Option Bytes :=
  match name with
  | [] => ([], none)
  | b :: rest =>
    if b :: rest = [46, 46] then ([46, 46], none)
    else
      match splitLastDot rest with
      | some (s, e) => (b :: s, some e)
      | none => (b :: rest, none)

/-- Rust `Path::extension` restricted to one component. -/
def fileExtension (name : Bytes) : Option Bytes := (fileSplit name).2

/-- Rust `Path::file_stem` restricted to one component. -/
def fileStem (name : Bytes) : Bytes := (fileSplit name).1

/-- Rust `Path::extension`: the extension of the last component. -/
def pathExtension : FPath → Option Bytes
  | [] => none
  | [c] => fileExtension c
  | _ :: rest => pathExtension rest

/-- `has_extension` from `src/main.rs` lines 169-174:
`path.extension().and_then(to_str).map(eq_ignore_ascii_case expected)`,
defaulting to `false`. -/
def has_extension (p : FPath) (expected : Bytes) : Bool :=
  match pathExtension p with
  | some ext => isValidUtf8 ext && eqIgnoreAsciiCase ext expected
  | none => false

/-- Rust `Path::with_extension` on one component (nonempty new
extension): file stem, a dot, then the new extension. -/
def compWithExtension (name ext : Bytes) : Bytes := fileStem name ++ 46 :: ext

/-- Rust `Path::with_extension` (`path.with_extension(target)` in `run`):
replace the extension of the last component. -/
def with_extension : FPath → Bytes → FPath
  | [], _ => []
  | [c], ext => [compWithExtension c ext]
  | c :: rest, ext => c :: with_extension rest ext

/-! ### The filesystem tree seen by the Collector -/

/-- One filesystem entry as classified by `collect_files`.  The
constructors map onto the branches of the loop body (lines 123-161):

* `vanished e`: `fs::symlink_metadata` itself failed with error text `e`;
* `dirOk ents`: a directory whose `read_dir` listing succeeded; each
  element of `ents` is either a child entry `(name, node)` or a per-entry
  iterator error;
* `dirErr e`: a directory whose `read_dir` call failed;
* `file`: a regular file;
* `symlinkFile` / `symlinkDir l` / `symlinkOther`: a symlink whose
  `fs::metadata` re-resolution succeeded, classified by the target's
  type (a symlinked directory's resolved contents `l` are carried in the
  model but never traversed by the code);
* `symlinkErr e`: a symlink whose re-resolution failed;
* `other`: any other entry type (sockets, devices, ...). -/
inductive Node where
  | file : Node
  | other : Node
  | vanished : String → Node
  | symlinkFile : Node
  | symlinkDir : List (Bytes × Node) → Node
  | symlinkOther : Node
  | symlinkErr : String → Node
  | dirOk : List (Except String (Bytes × Node)) → Node
  | dirErr : String → Node

/-- A directory listing as produced by `fs::read_dir`. -/
abbrev DirListing := List (Except String (Bytes × Node))

/-- The warnings pushed by `collect_files`, one constructor per
`warnings.push(format!(...))` site, each carrying the affected path and
the error text. -/
inductive Warning where
  | vanishedW (path : FPath) (err : String)
  | dirEntryW (dir : FPath) (err : String)
  | dirListW (dir : FPath) (err : String)
  | symlinkW (path : FPath) (err : String)
deriving DecidableEq

/-- The children a successful `read_dir` pushes onto the work list, in
listing order, with their paths. -/
def entsToStack (p : FPath) : DirListing → List (FPath × Node)
  | [] => []
  | .ok (name, n) :: rest => (p ++ [name], n) :: entsToStack p rest
  | .error _ :: rest => entsToStack p rest

/-- The warnings produced by the per-entry errors of a `read_dir`
listing, in listing order. -/
def entErrWarns (p : FPath) : DirListing → List Warning
  | [] => []
  | .ok _ :: rest => entErrWarns p rest
  | .error e :: rest => .dirEntryW p e :: entErrWarns p rest

mutual

/-- Termination measure: size of a filesystem tree node. -/
def nodeWeight : Node → Nat
  | .file => 1
  | .other => 1
  | .vanished _ => 1
  | .symlinkFile => 1
  | .symlinkDir _ => 1
  | .symlinkOther => 1
  | .symlinkErr _ => 1
  | .dirOk ents => 1 + listingWeight ents
  | .dirErr _ => 1

/-- Termination measure: size of a directory listing. -/
def listingWeight : DirListing → Nat
  | [] => 0
  | .ok (_, n) :: rest => 1 + nodeWeight n + listingWeight rest
  | .error _ :: rest => 1 + listingWeight rest

end

/-- Termination measure: total size of the nodes on the work list. -/
def stackWeight (l : List (FPath × Node)) : Nat :=
  (l.map fun pn => nodeWeight pn.2).sum

theorem stackWeight_nil : stackWeight [] = 0 := rfl

theorem stackWeight_cons (pn : FPath × Node) (l : List (FPath × Node)) :
    stackWeight (pn :: l) = nodeWeight pn.2 + stackWeight l := by
  simp [stackWeight]

theorem stackWeight_append (a b : List (FPath × Node)) :
    stackWeight (a ++ b) = stackWeight a + stackWeight b := by
  simp [stackWeight]

theorem stackWeight_reverse (l : List (FPath × Node)) :
    stackWeight l.reverse = stackWeight l := by
  simp [stackWeight, List.sum_reverse]

theorem entsToStack_weight_le (p : FPath) (ents : DirListing) :
    stackWeight (entsToStack p ents) ≤ listingWeight ents := by
  induction ents with
  | nil => simp [entsToStack, stackWeight]
  | cons e rest ih =>
    cases e with
    | ok pair =>
      obtain ⟨name, n⟩ := pair
      simp only [entsToStack, stackWeight_cons, listingWeight]
      omega
    | error e =>
      simp only [entsToStack, listingWeight]
      omega

/-- The work-list loop of `collect_files` (lines 123-162).  The list
head is the top of the Rust `Vec` stack; a directory pushes its children
in listing order, so they sit reversed on top.  Returns the discovered
files (in discovery order, before sorting) and the warnings (in emission
order). -/
def collectLoop (ext : Bytes) : List (FPath × Node) → List FPath × List Warning
  | [] => ([], [])
  | (p, Node.file) :: rest =>
    let r := collectLoop ext rest
    (if has_extension p ext then p :: r.1 else r.1, r.2)
  | (_, Node.other) :: rest => collectLoop ext rest
  | (p, Node.vanished e) :: rest =>
    let r := collectLoop ext rest
    (r.1, Warning.vanishedW p e :: r.2)
  | (p, Node.symlinkFile) :: rest =>
    let r := collectLoop ext rest
    (if has_extension p ext then p :: r.1 else r.1, r.2)
  | (_, Node.symlinkDir _) :: rest => collectLoop ext rest
  | (_, Node.symlinkOther) :: rest => collectLoop ext rest
  | (p, Node.symlinkErr e) :: rest =>
    let r := collectLoop ext rest
    (r.1, Warning.symlinkW p e :: r.2)
  | (p, Node.dirOk ents) :: rest =>
    let r := collectLoop ext ((entsToStack p ents).reverse ++ rest)
    (r.1, entErrWarns p ents ++ r.2)
  | (p, Node.dirErr e) :: rest =>
    let r := collectLoop ext rest
    (r.1, Warning.dirListW p e :: r.2)
termination_by stack => stackWeight stack
decreasing_by
  all_goals simp only [stackWeight_cons, stackWeight_append, stackWeight_reverse, nodeWeight]
  all_goals try (have h := entsToStack_weight_le p ents; omega)
  all_goals omega

/-- The result record of `collect_files` (struct `CollectedFiles`). -/
structure CollectedFiles where
  files : List FPath
  warnings : List Warning
deriving DecidableEq

/-- `collect_files` from `src/main.rs` lines 118-167: work-list
traversal seeded with the root, then `files.sort()` (lexicographic by
full path, `PathBuf` order). -/
def collect_files (root : FPath) (extension : Bytes) (t : Node) : CollectedFiles :=
  let r := collectLoop extension [(root, t)]
  ⟨r.1.mergeSort, r.2⟩

/-- `display_relative` (lines 111-116): strip the root prefix if
possible, otherwise show the path unchanged. -/
def stripRoot : FPath → FPath → Option FPath
  | [], p => some p
  | _ :: _, [] => none
  | r :: rs, c :: cs => if r = c then stripRoot rs cs else none

/-- Rust `display_relative`: `path.strip_prefix(root).unwrap_or(path)`. -/
def display_relative (root p : FPath) : FPath := (stripRoot root p).getD p

/-! ### Specification-side view of the Collector

The following definitions restate, following the specification's words,
which files and warnings a walk of the tree should produce; they are
compared with the work-list implementation `collect_files` above. -/

mutual

/-- Modelled from the spec: the candidate files in a subtree — the
regular files, and symlinks resolving to regular files, whose extension
case-insensitively matches, reached by descending only through readable
real directories. -/
def specFiles (ext : Bytes) : FPath → Node → List FPath
  | p, .file => if has_extension p ext then [p] else []
  | _, .other => []
  | _, .vanished _ => []
  | p, .symlinkFile => if has_extension p ext then [p] else []
  | _, .symlinkDir _ => []
  | _, .symlinkOther => []
  | _, .symlinkErr _ => []
  | p, .dirOk ents => specFilesEnts ext p ents
  | _, .dirErr _ => []

/-- The candidate files contributed by a directory listing. -/
def specFilesEnts (ext : Bytes) : FPath → DirListing → List FPath
  | _, [] => []
  | p, .ok (name, n) :: rest => specFiles ext (p ++ [name]) n ++ specFilesEnts ext p rest
  | p, .error _ :: rest => specFilesEnts ext p rest

end

mutual

/-- Modelled from the spec: one warning per per-entry error in a
subtree — vanished entries, unresolvable symlinks, unreadable directory
listings and per-entry iterator errors — each naming the affected path
and the error. -/
def specWarns : FPath → Node → List Warning
  | _, .file => []
  | _, .other => []
  | p, .vanished e => [.vanishedW p e]
  | _, .symlinkFile => []
  | _, .symlinkDir _ => []
  | _, .symlinkOther => []
  | p, .symlinkErr e => [.symlinkW p e]
  | p, .dirOk ents => entErrWarns p ents ++ specWarnsEnts p ents
  | p, .dirErr e => [.dirListW p e]

/-- The warnings contributed by the children of a directory listing. -/
def specWarnsEnts : FPath → DirListing → List Warning
  | _, [] => []
  | p, .ok (name, n) :: rest => specWarns (p ++ [name]) n ++ specWarnsEnts p rest
  | p, .error _ :: rest => specWarnsEnts p rest

end

/-- The entry at path `q` with node `m` is reachable from the entry at
path `p` with node `n` by descending through successfully listed real
directories only (symlinks are never descended). -/
inductive ReachesEntry : FPath → Node → FPath → Node → Prop where
  | here (p : FPath) (n : Node) : ReachesEntry p n p n
  | child {p : FPath} {ents : DirListing} {name : Bytes} {c : Node} {q : FPath} {m : Node} :
      Except.ok (name, c) ∈ ents → ReachesEntry (p ++ [name]) c q m →
      ReachesEntry p (Node.dirOk ents) q m

/-- A node that `collect_files` treats as a candidate file: a regular
file, or a symlink resolving to a regular file. -/
def IsMatchNode (n : Node) : Prop := n = Node.file ∨ n = Node.symlinkFile

/-- Modelled from the spec: `q` is a path under the root that is a
regular file (or a symlink resolving to a regular file) whose extension
case-insensitively equals `ext`, reachable without descending through
directory symlinks. -/
def SpecCandidate (root : FPath) (ext : Bytes) (t : Node) (q : FPath) : Prop :=
  ∃ m, ReachesEntry root t q m ∧ IsMatchNode m ∧ has_extension q ext = true

/-- Modelled from the spec: the warning `w` corresponds to a per-entry
error at a reachable point of the tree, naming the affected path and the
error text. -/
def WarnSpec (root : FPath) (t : Node) : Warning → Prop
  | .vanishedW p e => ReachesEntry root t p (.vanished e)
  | .symlinkW p e => ReachesEntry root t p (.symlinkErr e)
  | .dirListW p e => ReachesEntry root t p (.dirErr e)
  | .dirEntryW p e => ∃ ents, ReachesEntry root t p (.dirOk ents) ∧ Except.error e ∈ ents

/-- One reordering step on a tree: somewhere in the tree, one directory
listing is replaced by a permutation of it.  This captures a change in
the order in which `read_dir` happens to yield the entries. -/
inductive ReorderStep : Node → Node → Prop where
  | here {ents ents' : DirListing} :
      ents.Perm ents' → ReorderStep (Node.dirOk ents) (Node.dirOk ents')
  | deeper {l₁ l₂ : DirListing} {name : Bytes} {c c' : Node} :
      ReorderStep c c' →
      ReorderStep (Node.dirOk (l₁ ++ Except.ok (name, c) :: l₂))
        (Node.dirOk (l₁ ++ Except.ok (name, c') :: l₂))

/-! ### The Rename Executor (`run`, lines 29-109) -/

/-- The type of an existing filesystem entry, as far as the executor's
`target.exists()` check could care (it does not: existence of any kind
blocks the rename). -/
inductive FKind where
  | fileK : FKind
  | dirK : FKind
  | symlinkK : FKind
deriving DecidableEq

/-- The executor's view of the filesystem: the set of existing paths
(with their entry types), plus an oracle injecting `fs::rename` failures
(cross-device links, permission errors, races, ...). -/
structure FsState where
  files : List (FPath × FKind)
  renameErr : FPath → FPath → Option String

/-- Rust `target.exists()`: some entry of any type exists at `p`. -/
def existsPath (st : FsState) (p : FPath) : Bool :=
  st.files.any fun e => e.1 == p

/-- Rust `fs::rename(path, target)`: fails when the oracle says so
(state unchanged), otherwise moves the entry at `path` to `target`. -/
def renameFs (st : FsState) (p target : FPath) : Except String FsState :=
  match st.renameErr p target with
  | some e => Except.error e
  | none =>
    let k := (((st.files.find? fun e => e.1 == p).map Prod.snd).getD FKind.fileK)
    Except.ok { st with files := (target, k) :: st.files.filter fun e => !(e.1 == p) }

/-- One `progress.println` message of the executor loop: either the
"Skipping {path} ({target} already exists)" note naming both
display-relative paths, or the "Failed to rename {path}: {err}" note. -/
inductive PNote where
  | skipNote (path target : FPath)
  | failNote (path : FPath) (err : String)
deriving DecidableEq

/-- The executor's accumulating state: the `converted` and
`skipped_existing` counters, the `failed` vector of (path, error text)
pairs, the progress-bar position (number of `progress.inc(1)` calls) and
the emitted progress notes. -/
structure RunAcc where
  converted : Nat
  skipped : Nat
  failed : List (FPath × String)
  progressPos : Nat
  notes : List PNote
deriving DecidableEq

/-- The executor's initial accumulator. -/
def zeroAcc : RunAcc := ⟨0, 0, [], 0, []⟩

/-- The `for path in &collected.files` loop of `run` (lines 57-86):
compute the target, skip if it exists, otherwise rename, recording the
outcome, and advance the progress position once per candidate. -/
def runLoop (root : FPath) (tgt : Bytes) :
    List FPath → FsState → RunAcc → RunAcc × FsState
  | [], st, acc => (acc, st)
  | p :: rest, st, acc =>
    let dp := display_relative root p
    let target := with_extension p tgt
    if existsPath st target then
      runLoop root tgt rest st
        { acc with
          skipped := acc.skipped + 1
          notes := acc.notes ++ [PNote.skipNote dp (display_relative root target)]
          progressPos := acc.progressPos + 1 }
    else
      match renameFs st p target with
      | Except.ok st' =>
        runLoop root tgt rest st'
          { acc with
            converted := acc.converted + 1
            progressPos := acc.progressPos + 1 }
      | Except.error e =>
        runLoop root tgt rest st
          { acc with
            failed := acc.failed ++ [(p, e)]
            notes := acc.notes ++ [PNote.failNote dp e]
            progressPos := acc.progressPos + 1 }

/-! ### Configuration (`Config`, lines 176-258) and `main` -/

/-- UTF-8 bytes of the fixed source/target extension literals `"NEV"`
and `"R3D"`. -/
def nevBytes : Bytes := [78, 69, 86]

/-- UTF-8 bytes of `"R3D"`. -/
def r3dBytes : Bytes := [82, 51, 68]

/-- The `Config` struct: canonicalized root plus the `--invert` flag. -/
structure Config where
  root : FPath
  invert : Bool

/-- `Config::usage` (line 248). -/
def usageText : String :=
  "Usage: r3dy [--invert] [path]\n\nRenames .NEV files to .R3D (or vice versa with --invert) within the given path."

/-- `Config::source_extension` (lines 251-253). -/
def Config.source_extension (c : Config) : Bytes :=
  if c.invert then r3dBytes else nevBytes

/-- `Config::target_extension` (lines 255-257). -/
def Config.target_extension (c : Config) : Bytes :=
  if c.invert then nevBytes else r3dBytes

/-- The `ConfigError` enum. -/
inductive ConfigError where
  | Message (msg : String)
  | Help (text : String)

/-- The process environment `Config::from_env` queries: the current
directory, absoluteness and joining of raw argument paths, `fs::metadata`
on the chosen root (`Ok` carries `is_dir`), and `canonicalize`, which
yields the resolved root as a component path. -/
structure SysEnv where
  cwdResult : Except String String
  isAbsolute : String → Bool
  joinPath : String → String → String
  rootMeta : String → Except String Bool
  canonicalize : String → Except String FPath

/-- The `for arg in env::args().skip(1)` loop of `Config::from_env`
(lines 191-209): `--help`/`-h` short-circuits, `--invert` sets the flag,
anything else is the positional root — a second one is an error. -/
def parseArgsLoop : List String → Bool → Option String →
    Except ConfigError (Bool × Option String)
  | [], invert, root => Except.ok (invert, root)
  | a :: rest, invert, root =>
    if a = "--help" ∨ a = "-h" then Except.error (ConfigError.Help usageText)
    else if a = "--invert" then parseArgsLoop rest true root
    else
      match root with
      | some _ => Except.error (ConfigError.Message ("Unexpected argument: " ++ a))
      | none => parseArgsLoop rest invert (some a)

/-- `Config::from_env` (lines 187-245): parse the arguments, resolve the
root against the current directory, require it to be an accessible
directory, and canonicalize it. -/
def Config.from_env (args : List String) (env : SysEnv) : Except ConfigError Config :=
  match parseArgsLoop args false none with
  | Except.error e => Except.error e
  | Except.ok (invert, rootOpt) =>
    match env.cwdResult with
    | Except.error e =>
      Except.error (ConfigError.Message ("Failed to determine current directory: " ++ e))
    | Except.ok cwd =>
      let rootStr :=
        match rootOpt with
        | some p => if env.isAbsolute p then p else env.joinPath cwd p
        | none => cwd
      match env.rootMeta rootStr with
      | Except.error e =>
        Except.error (ConfigError.Message (rootStr ++ " is not accessible: " ++ e))
      | Except.ok isDir =>
        if !isDir then Except.error (ConfigError.Message (rootStr ++ " is not a directory"))
        else
          match env.canonicalize rootStr with
          | Except.error e =>
            Except.error (ConfigError.Message ("Failed to resolve " ++ rootStr ++ ": " ++ e))
          | Except.ok resolved => Except.ok ⟨resolved, invert⟩

/-- The outcome of `run`: either the early "No .{ext} files found under
{root}" return (line 36-43, filesystem untouched), or a completed pass
with the summary counts (line 90-96), the per-failure detail lines
(lines 98-106), the emitted progress notes, the final progress position
and the final filesystem state. -/
inductive RunOutcome where
  | noFiles (srcExt : Bytes) (root : FPath) (fs : FsState)
  | completed (summary : Nat × Nat × Nat) (details : List (FPath × String))
      (notes : List PNote) (progressEnd : Nat) (fs : FsState)

/-- Everything `run` reports: the warnings printed to standard error,
then the outcome. -/
structure RunReport where
  warnings : List Warning
  outcome : RunOutcome

/-- The `ProgressStyle::with_template(...)` call (lines 45-48).  The
template is a fixed, valid indicatif template literal, so the call
succeeds; its error branch (mapped into `run`'s error) is retained in
the model's type. -/
def progressStyleResult : Except String Unit := Except.ok ()

/-- `run` (lines 29-109) over a collector tree `t` and an executor
filesystem state `st`. -/
def runModel (cfg : Config) (t : Node) (st : FsState) : Except String RunReport :=
  let collected := collect_files cfg.root cfg.source_extension t
  if collected.files.isEmpty then
    Except.ok ⟨collected.warnings, RunOutcome.noFiles cfg.source_extension cfg.root st⟩
  else
    match progressStyleResult with
    | Except.error e => Except.error e
    | Except.ok _ =>
      let r := runLoop cfg.root cfg.target_extension collected.files st zeroAcc
      Except.ok ⟨collected.warnings,
        RunOutcome.completed (r.1.converted, r.1.skipped, r.1.failed.length)
          r.1.failed r.1.notes r.1.progressPos r.2⟩

/-- What `main` (lines 8-27) does with the configuration result. -/
inductive MainResult where
  | helpShown (text : String)
  | configError (msg : String) (usage : String)
  | ran (report : Except String RunReport)

/-- `main`: parse the configuration; on `Help` print it and return, on
`Message` print the error and the usage text and exit 1, otherwise call
`run`. -/
def mainModel (args : List String) (env : SysEnv) (t : Node) (st : FsState) : MainResult :=
  match Config.from_env args env with
  | Except.error (ConfigError.Help text) => MainResult.helpShown text
  | Except.error (ConfigError.Message m) => MainResult.configError m usageText
  | Except.ok cfg => MainResult.ran (runModel cfg t st)

/-- The process exit code of each `main` outcome: 0 for help and for a
completed (or "no files found") run, 1 for configuration errors and for
a `run` error. -/
def exitCode : MainResult → Nat
  | MainResult.helpShown _ => 0
  | MainResult.configError _ _ => 1
  | MainResult.ran (Except.ok _) => 0
  | MainResult.ran (Except.error _) => 1

/-! ### Relating the work-list loop to the structural spec functions -/

/-- Candidate files contributed by one directory entry. -/
def entryFiles (ext : Bytes) (p : FPath) : Except String (Bytes × Node) → List FPath
  | .ok (name, n) => specFiles ext (p ++ [name]) n
  | .error _ => []

/-- Warnings contributed by one directory entry's subtree. -/
def entryWarns (p : FPath) : Except String (Bytes × Node) → List Warning
  | .ok (name, n) => specWarns (p ++ [name]) n
  | .error _ => []

theorem specFilesEnts_eq_flatMap (ext : Bytes) (p : FPath) (ents : DirListing) :
    specFilesEnts ext p ents = ents.flatMap (entryFiles ext p) := by
  induction ents with
  | nil => simp [specFilesEnts]
  | cons e rest ih =>
    cases e with
    | ok pair =>
      obtain ⟨name, n⟩ := pair
      simp [specFilesEnts, entryFiles, ih]
    | error e => simp [specFilesEnts, entryFiles, ih]

theorem specWarnsEnts_eq_flatMap (p : FPath) (ents : DirListing) :
    specWarnsEnts p ents = ents.flatMap (entryWarns p) := by
  induction ents with
  | nil => simp [specWarnsEnts]
  | cons e rest ih =>
    cases e with
    | ok pair =>
      obtain ⟨name, n⟩ := pair
      simp [specWarnsEnts, entryWarns, ih]
    | error e => simp [specWarnsEnts, entryWarns, ih]

theorem flatMap_entsToStack_files (ext : Bytes) (p : FPath) (ents : DirListing) :
    ((entsToStack p ents).flatMap fun pn => specFiles ext pn.1 pn.2) =
      specFilesEnts ext p ents := by
  induction ents with
  | nil => simp [entsToStack, specFilesEnts]
  | cons e rest ih =>
    cases e with
    | ok pair =>
      obtain ⟨name, n⟩ := pair
      simp [entsToStack, specFilesEnts, ih]
    | error e => simp [entsToStack, specFilesEnts, ih]

theorem flatMap_entsToStack_warns (p : FPath) (ents : DirListing) :
    ((entsToStack p ents).flatMap fun pn => specWarns pn.1 pn.2) =
      specWarnsEnts p ents := by
  induction ents with
  | nil => simp [entsToStack, specWarnsEnts]
  | cons e rest ih =>
    cases e with
    | ok pair =>
      obtain ⟨name, n⟩ := pair
      simp [entsToStack, specWarnsEnts, ih]
    | error e => simp [entsToStack, specWarnsEnts, ih]

theorem collectLoopPermAux (ext : Bytes) :
    ∀ (N : Nat) (stack : List (FPath × Node)), stackWeight stack = N →
      (collectLoop ext stack).1.Perm (stack.flatMap fun pn => specFiles ext pn.1 pn.2) ∧
      (collectLoop ext stack).2.Perm (stack.flatMap fun pn => specWarns pn.1 pn.2) := by
  intro N
  induction N using Nat.strong_induction_on with
  | _ N ih =>
    intro stack hN
    cases stack with
    | nil => simp [collectLoop]
    | cons pn rest =>
      obtain ⟨p, n⟩ := pn
      cases n with
      | file =>
        have hr := ih (stackWeight rest)
          (by rw [← hN]; simp [stackWeight_cons, nodeWeight]) rest rfl
        by_cases hx : has_extension p ext <;>
          simpa [collectLoop, specFiles, hx] using hr
      | other =>
        have hr := ih (stackWeight rest)
          (by rw [← hN]; simp [stackWeight_cons, nodeWeight]) rest rfl
        simpa [collectLoop, specFiles, specWarns] using hr
      | vanished e =>
        have hr := ih (stackWeight rest)
          (by rw [← hN]; simp [stackWeight_cons, nodeWeight]) rest rfl
        simpa [collectLoop, specFiles, specWarns] using hr
      | symlinkFile =>
        have hr := ih (stackWeight rest)
          (by rw [← hN]; simp [stackWeight_cons, nodeWeight]) rest rfl
        by_cases hx : has_extension p ext <;>
          simpa [collectLoop, specFiles, hx] using hr
      | symlinkDir l =>
        have hr := ih (stackWeight rest)
          (by rw [← hN]; simp [stackWeight_cons, nodeWeight]) rest rfl
        simpa [collectLoop, specFiles, specWarns] using hr
      | symlinkOther =>
        have hr := ih (stackWeight rest)
          (by rw [← hN]; simp [stackWeight_cons, nodeWeight]) rest rfl
        simpa [collectLoop, specFiles, specWarns] using hr
      | symlinkErr e =>
        have hr := ih (stackWeight rest)
          (by rw [← hN]; simp [stackWeight_cons, nodeWeight]) rest rfl
        simpa [collectLoop, specFiles, specWarns] using hr
      | dirErr e =>
        have hr := ih (stackWeight rest)
          (by rw [← hN]; simp [stackWeight_cons, nodeWeight]) rest rfl
        simpa [collectLoop, specFiles, specWarns] using hr
      | dirOk ents =>
        have hlt : stackWeight ((entsToStack p ents).reverse ++ rest) < N := by
          rw [← hN]
          simp only [stackWeight_append, stackWeight_reverse, stackWeight_cons, nodeWeight]
          have h := entsToStack_weight_le p ents
          omega
        have hr := ih _ hlt ((entsToStack p ents).reverse ++ rest) rfl
        simp only [List.flatMap_append] at hr
        have hrev : List.Perm
            ((entsToStack p ents).reverse.flatMap fun pn => specFiles ext pn.1 pn.2)
            (specFilesEnts ext p ents) := by
          rw [← flatMap_entsToStack_files ext p ents]
          exact (List.reverse_perm _).flatMap_right _
        have hrevW : List.Perm
            ((entsToStack p ents).reverse.flatMap fun pn => specWarns pn.1 pn.2)
            (specWarnsEnts p ents) := by
          rw [← flatMap_entsToStack_warns p ents]
          exact (List.reverse_perm _).flatMap_right _
        constructor
        · have : (collectLoop ext ((p, Node.dirOk ents) :: rest)).1 =
              (collectLoop ext ((entsToStack p ents).reverse ++ rest)).1 := by
            simp [collectLoop]
          rw [this]
          refine (hr.1.trans (hrev.append_right _)).trans ?_
          simp [specFiles]
        · have : (collectLoop ext ((p, Node.dirOk ents) :: rest)).2 =
              entErrWarns p ents ++ (collectLoop ext ((entsToStack p ents).reverse ++ rest)).2 := by
            simp [collectLoop]
          rw [this]
          refine ((hr.2.trans (hrevW.append_right _)).append_left _).trans ?_
          simp [specWarns]

theorem collectLoop_files_perm (ext : Bytes) (stack : List (FPath × Node)) :
    (collectLoop ext stack).1.Perm (stack.flatMap fun pn => specFiles ext pn.1 pn.2) :=
  (collectLoopPermAux ext (stackWeight stack) stack rfl).1

theorem collectLoop_warns_perm (ext : Bytes) (stack : List (FPath × Node)) :
    (collectLoop ext stack).2.Perm (stack.flatMap fun pn => specWarns pn.1 pn.2) :=
  (collectLoopPermAux ext (stackWeight stack) stack rfl).2

theorem collect_files_files_perm (root : FPath) (ext : Bytes) (t : Node) :
    (collect_files root ext t).files.Perm (specFiles ext root t) := by
  have h := collectLoop_files_perm ext [(root, t)]
  simp only [List.flatMap_cons, List.flatMap_nil, List.append_nil] at h
  exact (List.mergeSort_perm _ _).trans h

theorem mem_collect_files (root : FPath) (ext : Bytes) (t : Node) (q : FPath) :
    q ∈ (collect_files root ext t).files ↔ q ∈ specFiles ext root t :=
  (collect_files_files_perm root ext t).mem_iff

theorem collect_files_warnings_eq (root : FPath) (ext : Bytes) (t : Node) :
    (collect_files root ext t).warnings = (collectLoop ext [(root, t)]).2 := rfl

theorem mem_collect_warnings (root : FPath) (ext : Bytes) (t : Node) (w : Warning) :
    w ∈ (collect_files root ext t).warnings ↔ w ∈ specWarns root t := by
  rw [collect_files_warnings_eq]
  have h := collectLoop_warns_perm ext [(root, t)]
  simp only [List.flatMap_cons, List.flatMap_nil, List.append_nil] at h
  exact h.mem_iff

/-! ### Characterizing membership via reachability -/

theorem nodeWeight_lt_of_mem_listing {name : Bytes} {c : Node} {ents : DirListing}
    (h : Except.ok (name, c) ∈ ents) : nodeWeight c < listingWeight ents := by
  induction ents with
  | nil => cases h
  | cons e rest ih =>
    rcases List.mem_cons.mp h with he | h'
    · rw [← he]
      simp only [listingWeight]
      omega
    · have := ih h'
      cases e with
      | ok pair =>
        obtain ⟨nm, n0⟩ := pair
        simp only [listingWeight]
        omega
      | error e =>
        simp only [listingWeight]
        omega

theorem mem_specFilesEnts (ext : Bytes) (p : FPath) (ents : DirListing) (q : FPath) :
    q ∈ specFilesEnts ext p ents ↔
      ∃ name c, Except.ok (name, c) ∈ ents ∧ q ∈ specFiles ext (p ++ [name]) c := by
  induction ents with
  | nil => simp [specFilesEnts]
  | cons e rest ih =>
    cases e with
    | ok pair =>
      obtain ⟨name, n⟩ := pair
      simp only [specFilesEnts, List.mem_append, ih, List.mem_cons]
      constructor
      · rintro (h | ⟨nm, c, hmem, hq⟩)
        · exact ⟨name, n, Or.inl rfl, h⟩
        · exact ⟨nm, c, Or.inr hmem, hq⟩
      · rintro ⟨nm, c, hc | hmem, hq⟩
        · obtain ⟨h1, h2⟩ := Prod.mk.injEq .. |>.mp (Except.ok.inj hc)
          subst h1
          subst h2
          exact Or.inl hq
        · exact Or.inr ⟨nm, c, hmem, hq⟩
    | error e =>
      simp only [specFilesEnts, ih, List.mem_cons]
      constructor
      · rintro ⟨nm, c, hmem, hq⟩
        exact ⟨nm, c, Or.inr hmem, hq⟩
      · rintro ⟨nm, c, hc | hmem, hq⟩
        · cases hc
        · exact ⟨nm, c, hmem, hq⟩

theorem mem_specFiles_aux (ext : Bytes) :
    ∀ (N : Nat) (n : Node), nodeWeight n = N → ∀ (p q : FPath),
      (q ∈ specFiles ext p n ↔ SpecCandidate p ext n q) := by
  intro N
  induction N using Nat.strong_induction_on with
  | _ N ih =>
    intro n hN p q
    cases n with
    | file =>
      constructor
      · intro h
        by_cases hx : has_extension p ext
        · simp only [specFiles, hx, if_true, List.mem_singleton] at h
          subst h
          exact ⟨_, ReachesEntry.here _ _, Or.inl rfl, hx⟩
        · simp [specFiles, hx] at h
      · rintro ⟨m, hre, hm, hx⟩
        cases hre
        simp [specFiles, hx]
    | symlinkFile =>
      constructor
      · intro h
        by_cases hx : has_extension p ext
        · simp only [specFiles, hx, if_true, List.mem_singleton] at h
          subst h
          exact ⟨_, ReachesEntry.here _ _, Or.inr rfl, hx⟩
        · simp [specFiles, hx] at h
      · rintro ⟨m, hre, hm, hx⟩
        cases hre
        simp [specFiles, hx]
    | other =>
      constructor
      · intro h
        simp [specFiles] at h
      · rintro ⟨m, hre, hm, hx⟩
        cases hre
        simp [IsMatchNode] at hm
    | vanished e =>
      constructor
      · intro h
        simp [specFiles] at h
      · rintro ⟨m, hre, hm, hx⟩
        cases hre
        simp [IsMatchNode] at hm
    | symlinkDir l =>
      constructor
      · intro h
        simp [specFiles] at h
      · rintro ⟨m, hre, hm, hx⟩
        cases hre
        simp [IsMatchNode] at hm
    | symlinkOther =>
      constructor
      · intro h
        simp [specFiles] at h
      · rintro ⟨m, hre, hm, hx⟩
        cases hre
        simp [IsMatchNode] at hm
    | symlinkErr e =>
      constructor
      · intro h
        simp [specFiles] at h
      · rintro ⟨m, hre, hm, hx⟩
        cases hre
        simp [IsMatchNode] at hm
    | dirErr e =>
      constructor
      · intro h
        simp [specFiles] at h
      · rintro ⟨m, hre, hm, hx⟩
        cases hre
        simp [IsMatchNode] at hm
    | dirOk ents =>
      have hunf : specFiles ext p (Node.dirOk ents) = specFilesEnts ext p ents := by
        simp [specFiles]
      rw [hunf, mem_specFilesEnts]
      simp only [nodeWeight] at hN
      constructor
      · rintro ⟨name, c, hmem, hq⟩
        have hlt : nodeWeight c < N := by
          have := nodeWeight_lt_of_mem_listing hmem
          omega
        obtain ⟨m, hre, hm, hx⟩ := (ih _ hlt c rfl (p ++ [name]) q).mp hq
        exact ⟨m, ReachesEntry.child hmem hre, hm, hx⟩
      · rintro ⟨m, hre, hm, hx⟩
        cases hre with
        | here =>
          simp [IsMatchNode] at hm
        | @child _ _ name c _ _ hmem hre' =>
          have hlt : nodeWeight c < N := by
            have := nodeWeight_lt_of_mem_listing hmem
            omega
          exact ⟨name, c, hmem, (ih _ hlt c rfl (p ++ [name]) q).mpr ⟨m, hre', hm, hx⟩⟩

theorem mem_specFiles_iff (ext : Bytes) (p q : FPath) (n : Node) :
    q ∈ specFiles ext p n ↔ SpecCandidate p ext n q :=
  mem_specFiles_aux ext (nodeWeight n) n rfl p q

theorem mem_entErrWarns (p : FPath) (ents : DirListing) (w : Warning) :
    w ∈ entErrWarns p ents ↔ ∃ e, w = Warning.dirEntryW p e ∧ Except.error e ∈ ents := by
  induction ents with
  | nil => simp [entErrWarns]
  | cons entry rest ih =>
    cases entry with
    | ok pair =>
      simp only [entErrWarns, ih, List.mem_cons]
      constructor
      · rintro ⟨e, rfl, hmem⟩
        exact ⟨e, rfl, Or.inr hmem⟩
      · rintro ⟨e, rfl, hc | hmem⟩
        · cases hc
        · exact ⟨e, rfl, hmem⟩
    | error e0 =>
      simp only [entErrWarns, List.mem_cons, ih]
      constructor
      · rintro (rfl | ⟨e, rfl, hmem⟩)
        · exact ⟨e0, rfl, Or.inl rfl⟩
        · exact ⟨e, rfl, Or.inr hmem⟩
      · rintro ⟨e, rfl, hc | hmem⟩
        · rw [Except.error.inj hc]
          exact Or.inl rfl
        · exact Or.inr ⟨e, rfl, hmem⟩

theorem mem_specWarnsEnts (p : FPath) (ents : DirListing) (w : Warning) :
    w ∈ specWarnsEnts p ents ↔
      ∃ name c, Except.ok (name, c) ∈ ents ∧ w ∈ specWarns (p ++ [name]) c := by
  induction ents with
  | nil => simp [specWarnsEnts]
  | cons e rest ih =>
    cases e with
    | ok pair =>
      obtain ⟨name, n⟩ := pair
      simp only [specWarnsEnts, List.mem_append, ih, List.mem_cons]
      constructor
      · rintro (h | ⟨nm, c, hmem, hq⟩)
        · exact ⟨name, n, Or.inl rfl, h⟩
        · exact ⟨nm, c, Or.inr hmem, hq⟩
      · rintro ⟨nm, c, hc | hmem, hq⟩
        · obtain ⟨h1, h2⟩ := Prod.mk.injEq .. |>.mp (Except.ok.inj hc)
          subst h1
          subst h2
          exact Or.inl hq
        · exact Or.inr ⟨nm, c, hmem, hq⟩
    | error e =>
      simp only [specWarnsEnts, ih, List.mem_cons]
      constructor
      · rintro ⟨nm, c, hmem, hq⟩
        exact ⟨nm, c, Or.inr hmem, hq⟩
      · rintro ⟨nm, c, hc | hmem, hq⟩
        · cases hc
        · exact ⟨nm, c, hmem, hq⟩

theorem warnSpec_dirOk (p : FPath) (ents : DirListing) (w : Warning) :
    WarnSpec p (Node.dirOk ents) w ↔
      ((∃ e, w = Warning.dirEntryW p e ∧ Except.error e ∈ ents) ∨
        ∃ name c, Except.ok (name, c) ∈ ents ∧ WarnSpec (p ++ [name]) c w) := by
  constructor
  · intro h
    cases w with
    | vanishedW pw ew =>
      cases h with
      | @child _ _ name c _ _ hmem hre' => exact Or.inr ⟨name, c, hmem, hre'⟩
    | symlinkW pw ew =>
      cases h with
      | @child _ _ name c _ _ hmem hre' => exact Or.inr ⟨name, c, hmem, hre'⟩
    | dirListW pw ew =>
      cases h with
      | @child _ _ name c _ _ hmem hre' => exact Or.inr ⟨name, c, hmem, hre'⟩
    | dirEntryW pw ew =>
      obtain ⟨ents', hre, hmem'⟩ := h
      cases hre with
      | here => exact Or.inl ⟨ew, rfl, hmem'⟩
      | @child _ _ name c _ _ hmem hre' => exact Or.inr ⟨name, c, hmem, ⟨ents', hre', hmem'⟩⟩
  · rintro (⟨e, rfl, hmem⟩ | ⟨name, c, hmem, hw⟩)
    · exact ⟨ents, ReachesEntry.here p (Node.dirOk ents), hmem⟩
    · cases w with
      | vanishedW pw ew => exact ReachesEntry.child hmem hw
      | symlinkW pw ew => exact ReachesEntry.child hmem hw
      | dirListW pw ew => exact ReachesEntry.child hmem hw
      | dirEntryW pw ew =>
        obtain ⟨ents', hre, hmem'⟩ := hw
        exact ⟨ents', ReachesEntry.child hmem hre, hmem'⟩

theorem mem_specWarns_aux :
    ∀ (N : Nat) (n : Node), nodeWeight n = N → ∀ (p : FPath) (w : Warning),
      (w ∈ specWarns p n ↔ WarnSpec p n w) := by
  intro N
  induction N using Nat.strong_induction_on with
  | _ N ih =>
    intro n hN p w
    cases n with
    | file =>
      simp only [specWarns, List.not_mem_nil, false_iff]
      cases w with
      | vanishedW pw ew => intro hre; cases hre
      | symlinkW pw ew => intro hre; cases hre
      | dirListW pw ew => intro hre; cases hre
      | dirEntryW pw ew => rintro ⟨ents', hre, _⟩; cases hre
    | other =>
      simp only [specWarns, List.not_mem_nil, false_iff]
      cases w with
      | vanishedW pw ew => intro hre; cases hre
      | symlinkW pw ew => intro hre; cases hre
      | dirListW pw ew => intro hre; cases hre
      | dirEntryW pw ew => rintro ⟨ents', hre, _⟩; cases hre
    | symlinkFile =>
      simp only [specWarns, List.not_mem_nil, false_iff]
      cases w with
      | vanishedW pw ew => intro hre; cases hre
      | symlinkW pw ew => intro hre; cases hre
      | dirListW pw ew => intro hre; cases hre
      | dirEntryW pw ew => rintro ⟨ents', hre, _⟩; cases hre
    | symlinkDir l =>
      simp only [specWarns, List.not_mem_nil, false_iff]
      cases w with
      | vanishedW pw ew => intro hre; cases hre
      | symlinkW pw ew => intro hre; cases hre
      | dirListW pw ew => intro hre; cases hre
      | dirEntryW pw ew => rintro ⟨ents', hre, _⟩; cases hre
    | symlinkOther =>
      simp only [specWarns, List.not_mem_nil, false_iff]
      cases w with
      | vanishedW pw ew => intro hre; cases hre
      | symlinkW pw ew => intro hre; cases hre
      | dirListW pw ew => intro hre; cases hre
      | dirEntryW pw ew => rintro ⟨ents', hre, _⟩; cases hre
    | vanished e =>
      simp only [specWarns, List.mem_singleton]
      cases w with
      | vanishedW pw ew =>
        simp only [Warning.vanishedW.injEq]
        constructor
        · rintro ⟨rfl, rfl⟩
          exact ReachesEntry.here _ _
        · intro hre
          cases hre
          exact ⟨rfl, rfl⟩
      | symlinkW pw ew =>
        constructor
        · intro h
          cases h
        · intro hre
          cases hre
      | dirListW pw ew =>
        constructor
        · intro h
          cases h
        · intro hre
          cases hre
      | dirEntryW pw ew =>
        constructor
        · intro h
          cases h
        · rintro ⟨ents', hre, _⟩
          cases hre
    | symlinkErr e =>
      simp only [specWarns, List.mem_singleton]
      cases w with
      | symlinkW pw ew =>
        simp only [Warning.symlinkW.injEq]
        constructor
        · rintro ⟨rfl, rfl⟩
          exact ReachesEntry.here _ _
        · intro hre
          cases hre
          exact ⟨rfl, rfl⟩
      | vanishedW pw ew =>
        constructor
        · intro h
          cases h
        · intro hre
          cases hre
      | dirListW pw ew =>
        constructor
        · intro h
          cases h
        · intro hre
          cases hre
      | dirEntryW pw ew =>
        constructor
        · intro h
          cases h
        · rintro ⟨ents', hre, _⟩
          cases hre
    | dirErr e =>
      simp only [specWarns, List.mem_singleton]
      cases w with
      | dirListW pw ew =>
        simp only [Warning.dirListW.injEq]
        constructor
        · rintro ⟨rfl, rfl⟩
          exact ReachesEntry.here _ _
        · intro hre
          cases hre
          exact ⟨rfl, rfl⟩
      | vanishedW pw ew =>
        constructor
        · intro h
          cases h
        · intro hre
          cases hre
      | symlinkW pw ew =>
        constructor
        · intro h
          cases h
        · intro hre
          cases hre
      | dirEntryW pw ew =>
        constructor
        · intro h
          cases h
        · rintro ⟨ents', hre, _⟩
          cases hre
    | dirOk ents =>
      have hunf : specWarns p (Node.dirOk ents) = entErrWarns p ents ++ specWarnsEnts p ents := by
        simp [specWarns]
      rw [hunf, warnSpec_dirOk, List.mem_append, mem_entErrWarns, mem_specWarnsEnts]
      simp only [nodeWeight] at hN
      constructor
      · rintro (h | ⟨name, c, hmem, hw⟩)
        · exact Or.inl h
        · have hlt : nodeWeight c < N := by
            have := nodeWeight_lt_of_mem_listing hmem
            omega
          exact Or.inr ⟨name, c, hmem, (ih _ hlt c rfl (p ++ [name]) w).mp hw⟩
      · rintro (h | ⟨name, c, hmem, hw⟩)
        · exact Or.inl h
        · have hlt : nodeWeight c < N := by
            have := nodeWeight_lt_of_mem_listing hmem
            omega
          exact Or.inr ⟨name, c, hmem, (ih _ hlt c rfl (p ++ [name]) w).mpr hw⟩

theorem mem_specWarns_iff (p : FPath) (n : Node) (w : Warning) :
    w ∈ specWarns p n ↔ WarnSpec p n w :=
  mem_specWarns_aux (nodeWeight n) n rfl p w

/-! ### Sortedness and independence from the discovery order -/

theorem collect_files_sorted (root : FPath) (ext : Bytes) (t : Node) :
    List.Sorted (· ≤ ·) (collect_files root ext t).files :=
  List.sorted_mergeSort' _

theorem specFiles_dirOk (ext : Bytes) (p : FPath) (ents : DirListing) :
    specFiles ext p (Node.dirOk ents) = specFilesEnts ext p ents := by
  simp [specFiles]

theorem reorderStep_specFiles_perm (ext : Bytes) {t t' : Node} (h : ReorderStep t t') :
    ∀ p : FPath, (specFiles ext p t).Perm (specFiles ext p t') := by
  induction h with
  | here hperm =>
    intro p
    rw [specFiles_dirOk, specFiles_dirOk, specFilesEnts_eq_flatMap, specFilesEnts_eq_flatMap]
    exact hperm.flatMap_right _
  | @deeper l₁ l₂ name c c' hstep ih =>
    intro p
    rw [specFiles_dirOk, specFiles_dirOk, specFilesEnts_eq_flatMap, specFilesEnts_eq_flatMap,
      List.flatMap_append, List.flatMap_append, List.flatMap_cons, List.flatMap_cons]
    refine List.Perm.append_left _ (List.Perm.append_right _ ?_)
    simpa [entryFiles] using ih (p ++ [name])

theorem reorderChain_specFiles_perm (ext : Bytes) {t t' : Node}
    (h : Relation.ReflTransGen ReorderStep t t') (p : FPath) :
    (specFiles ext p t).Perm (specFiles ext p t') := by
  induction h with
  | refl => exact List.Perm.refl _
  | tail _hab hstep ih => exact ih.trans (reorderStep_specFiles_perm ext hstep p)


theorem collect_files_reorder_eq (root : FPath) (ext : Bytes) {t t' : Node}
    (h : Relation.ReflTransGen ReorderStep t t') :
    (collect_files root ext t).files = (collect_files root ext t').files := by
  refine List.eq_of_perm_of_sorted ?_ (collect_files_sorted root ext t)
    (collect_files_sorted root ext t')
  exact (collect_files_files_perm root ext t).trans
    ((reorderChain_specFiles_perm ext h root).trans
      (collect_files_files_perm root ext t').symm)

/-! ### Executor accounting -/

theorem runLoop_accounting (root : FPath) (tgt : Bytes) :
    ∀ (files : List FPath) (st : FsState) (acc : RunAcc),
      ((runLoop root tgt files st acc).1.converted + (runLoop root tgt files st acc).1.skipped +
          (runLoop root tgt files st acc).1.failed.length =
        acc.converted + acc.skipped + acc.failed.length + files.length) ∧
      (runLoop root tgt files st acc).1.progressPos = acc.progressPos + files.length := by
  intro files
  induction files with
  | nil =>
    intro st acc
    simp [runLoop]
  | cons p rest ih =>
    intro st acc
    by_cases h : existsPath st (with_extension p tgt)
    · have heq : runLoop root tgt (p :: rest) st acc =
          runLoop root tgt rest st
            { acc with
              skipped := acc.skipped + 1
              notes := acc.notes ++
                [PNote.skipNote (display_relative root p)
                  (display_relative root (with_extension p tgt))]
              progressPos := acc.progressPos + 1 } := by
        simp [runLoop, h]
      rw [heq]
      obtain ⟨h1, h2⟩ := ih st
        { acc with
          skipped := acc.skipped + 1
          notes := acc.notes ++
            [PNote.skipNote (display_relative root p)
              (display_relative root (with_extension p tgt))]
          progressPos := acc.progressPos + 1 }
      simp at h1 h2
      simp only [List.length_cons]
      constructor
      · omega
      · omega
    · cases hr : renameFs st p (with_extension p tgt) with
      | ok st' =>
        have heq : runLoop root tgt (p :: rest) st acc =
            runLoop root tgt rest st'
              { acc with
                converted := acc.converted + 1
                progressPos := acc.progressPos + 1 } := by
          simp [runLoop, h, hr]
        rw [heq]
        obtain ⟨h1, h2⟩ := ih st'
          { acc with
            converted := acc.converted + 1
            progressPos := acc.progressPos + 1 }
        simp at h1 h2
        simp only [List.length_cons]
        constructor
        · omega
        · omega
      | error e =>
        have heq : runLoop root tgt (p :: rest) st acc =
            runLoop root tgt rest st
              { acc with
                failed := acc.failed ++ [(p, e)]
                notes := acc.notes ++ [PNote.failNote (display_relative root p) e]
                progressPos := acc.progressPos + 1 } := by
          simp [runLoop, h, hr]
        rw [heq]
        obtain ⟨h1, h2⟩ := ih st
          { acc with
            failed := acc.failed ++ [(p, e)]
            notes := acc.notes ++ [PNote.failNote (display_relative root p) e]
            progressPos := acc.progressPos + 1 }
        simp at h1 h2
        simp only [List.length_cons]
        constructor
        · omega
        · omega

theorem existsPath_of_mem {st : FsState} {q : FPath} {k : FKind}
    (h : (q, k) ∈ st.files) : existsPath st q = true := by
  simp only [existsPath, List.any_eq_true]
  exact ⟨(q, k), h, by simp⟩

theorem runLoop_skip_eq (root : FPath) (tgt : Bytes) (p : FPath) (rest : List FPath)
    (st : FsState) (acc : RunAcc) (h : existsPath st (with_extension p tgt) = true) :
    runLoop root tgt (p :: rest) st acc =
      runLoop root tgt rest st
        { acc with
          skipped := acc.skipped + 1
          notes := acc.notes ++
            [PNote.skipNote (display_relative root p)
              (display_relative root (with_extension p tgt))]
          progressPos := acc.progressPos + 1 } := by
  simp [runLoop, h]

theorem runLoop_fail_eq (root : FPath) (tgt : Bytes) (p : FPath) (rest : List FPath)
    (st : FsState) (acc : RunAcc) (e : String)
    (hex : existsPath st (with_extension p tgt) = false)
    (herr : st.renameErr p (with_extension p tgt) = some e) :
    runLoop root tgt (p :: rest) st acc =
      runLoop root tgt rest st
        { acc with
          failed := acc.failed ++ [(p, e)]
          notes := acc.notes ++ [PNote.failNote (display_relative root p) e]
          progressPos := acc.progressPos + 1 } := by
  simp [runLoop, hex, renameFs, herr]

theorem runModel_isOk (cfg : Config) (t : Node) (st : FsState) :
    ∃ rep, runModel cfg t st = Except.ok rep := by
  simp only [runModel, progressStyleResult]
  split
  · exact ⟨_, rfl⟩
  · exact ⟨_, rfl⟩

/-! ### Run-level and configuration lemmas -/

theorem runModel_empty (cfg : Config) (t : Node) (st : FsState)
    (h : (collect_files cfg.root cfg.source_extension t).files = []) :
    runModel cfg t st =
      Except.ok ⟨(collect_files cfg.root cfg.source_extension t).warnings,
        RunOutcome.noFiles cfg.source_extension cfg.root st⟩ := by
  simp [runModel, h]

theorem runModel_completed (cfg : Config) (t : Node) (st : FsState)
    (h : (collect_files cfg.root cfg.source_extension t).files ≠ []) :
    runModel cfg t st =
      Except.ok ⟨(collect_files cfg.root cfg.source_extension t).warnings,
        RunOutcome.completed
          ((runLoop cfg.root cfg.target_extension
              (collect_files cfg.root cfg.source_extension t).files st zeroAcc).1.converted,
            (runLoop cfg.root cfg.target_extension
              (collect_files cfg.root cfg.source_extension t).files st zeroAcc).1.skipped,
            (runLoop cfg.root cfg.target_extension
              (collect_files cfg.root cfg.source_extension t).files st zeroAcc).1.failed.length)
          (runLoop cfg.root cfg.target_extension
            (collect_files cfg.root cfg.source_extension t).files st zeroAcc).1.failed
          (runLoop cfg.root cfg.target_extension
            (collect_files cfg.root cfg.source_extension t).files st zeroAcc).1.notes
          (runLoop cfg.root cfg.target_extension
            (collect_files cfg.root cfg.source_extension t).files st zeroAcc).1.progressPos
          (runLoop cfg.root cfg.target_extension
            (collect_files cfg.root cfg.source_extension t).files st zeroAcc).2⟩ := by
  simp [runModel, progressStyleResult, h]

theorem exitCode_of_config_ok (args : List String) (env : SysEnv) (t : Node) (st : FsState)
    (cfg : Config) (h : Config.from_env args env = Except.ok cfg) :
    exitCode (mainModel args env t st) = 0 := by
  obtain ⟨rep, hrep⟩ := runModel_isOk cfg t st
  simp [mainModel, h, hrep, exitCode]

theorem parseArgsLoop_invert_pre :
    ∀ (l : List String), (∀ a ∈ l, a = "--invert") →
      ∀ (rest : List String) (inv : Bool) (root : Option String),
        ∃ inv', parseArgsLoop (l ++ rest) inv root = parseArgsLoop rest inv' root := by
  intro l
  induction l with
  | nil =>
    intro _ rest inv root
    exact ⟨inv, rfl⟩
  | cons a l ih =>
    intro h rest inv root
    have ha : a = "--invert" := h a (List.mem_cons_self a l)
    subst ha
    have hrest : ∀ a ∈ l, a = "--invert" := fun a hm => h a (List.mem_cons_of_mem _ hm)
    have hstep : parseArgsLoop (("--invert" :: l) ++ rest) inv root =
        parseArgsLoop (l ++ rest) true root := by
      simp [parseArgsLoop]
    rw [hstep]
    exact ih hrest rest true root

theorem parseArgsLoop_second_positional (l₁ : List String) (x : String) (l₂ : List String)
    (y : String) (l₃ : List String)
    (h₁ : ∀ a ∈ l₁, a = "--invert")
    (hx1 : x ≠ "--help") (hx2 : x ≠ "-h") (hx3 : x ≠ "--invert")
    (h₂ : ∀ a ∈ l₂, a = "--invert")
    (hy1 : y ≠ "--help") (hy2 : y ≠ "-h") (hy3 : y ≠ "--invert") :
    parseArgsLoop (l₁ ++ x :: (l₂ ++ y :: l₃)) false none =
      Except.error (ConfigError.Message ("Unexpected argument: " ++ y)) := by
  obtain ⟨inv₁, he₁⟩ := parseArgsLoop_invert_pre l₁ h₁ (x :: (l₂ ++ y :: l₃)) false none
  rw [he₁]
  have hx : parseArgsLoop (x :: (l₂ ++ y :: l₃)) inv₁ none =
      parseArgsLoop (l₂ ++ y :: l₃) inv₁ (some x) := by
    simp [parseArgsLoop, hx1, hx2, hx3]
  rw [hx]
  obtain ⟨inv₂, he₂⟩ := parseArgsLoop_invert_pre l₂ h₂ (y :: l₃) inv₁ (some x)
  rw [he₂]
  simp [parseArgsLoop, hy1, hy2, hy3]

theorem mainModel_of_parse_error (args : List String) (env : SysEnv) (t : Node) (st : FsState)
    (msg : String) (h : parseArgsLoop args false none = Except.error (ConfigError.Message msg)) :
    mainModel args env t st = MainResult.configError msg usageText ∧
      exitCode (mainModel args env t st) = 1 := by
  have hcfg : Config.from_env args env = Except.error (ConfigError.Message msg) := by
    simp [Config.from_env, h]
  simp [mainModel, hcfg, exitCode]

/-! ### Extension-extraction corner cases -/

theorem pathExtension_append_last (pre : FPath) (c : Bytes) :
    pathExtension (pre ++ [c]) = fileExtension c := by
  induction pre with
  | nil => rfl
  | cons a pre ih =>
    cases pre with
    | nil => rfl
    | cons b pre' => exact ih

theorem splitLastDot_eq_none {s : Bytes} (h : (46 : Nat) ∉ s) : splitLastDot s = none := by
  induction s with
  | nil => rfl
  | cons b rest ih =>
    have hb : b ≠ 46 := fun hb => h (hb ▸ List.mem_cons_self b rest)
    have hrest := ih fun hm => h (List.mem_cons_of_mem _ hm)
    simp [splitLastDot, hrest, hb]

theorem fileExtension_dot_name {s : Bytes} (h : (46 : Nat) ∉ s) :
    fileExtension (46 :: s) = none := by
  have h2 : (46 :: s : Bytes) ≠ [46, 46] := by
    intro he
    injection he with _ h3
    exact h (h3 ▸ List.mem_cons_self 46 ([] : Bytes))
  simp [fileExtension, fileSplit, h2, splitLastDot_eq_none h]

theorem has_extension_dot_name (pre : FPath) {s : Bytes} (exp : Bytes)
    (h : (46 : Nat) ∉ s) : has_extension (pre ++ [46 :: s]) exp = false := by
  simp [has_extension, pathExtension_append_last, fileExtension_dot_name h]

theorem has_extension_invalid_utf8 (p : FPath) (exp : Bytes) {e : Bytes}
    (h1 : pathExtension p = some e) (h2 : isValidUtf8 e = false) :
    has_extension p exp = false := by
  simp [has_extension, h1, h2]

theorem not_mem_collect_of_no_ext (root : FPath) (ext : Bytes) (t : Node) (q : FPath)
    (h : has_extension q ext = false) : q ∉ (collect_files root ext t).files := by
  rw [mem_collect_files, mem_specFiles_iff]
  rintro ⟨m, _, _, hx⟩
  rw [h] at hx
  cases hx

/-! ### Concrete sample inputs used by the witnesses -/

/-- An executor filesystem state with no entries and no rename failures. -/
def sampleFs : FsState := ⟨[], fun _ _ => none⟩

/-- A sample configuration: root `w`, default direction. -/
def sampleCfg : Config := ⟨[[119]], false⟩

/-- A sample process environment: working directory `/w`, every relative
argument joined onto it, the root accessible and a directory, resolving
to the component path `w`. -/
def sampleEnv : SysEnv :=
  ⟨Except.ok "/w", fun _ => false, fun a b => a ++ "/" ++ b,
    fun _ => Except.ok true, fun _ => Except.ok [[119]]⟩

/-- An executor state in which `a.R3D` (the target of `a.NEV`) already
exists, as a directory. -/
def skipState : FsState := ⟨[([[97, 46, 82, 51, 68]], FKind.dirK)], fun _ _ => none⟩

/-- An executor state whose rename oracle always fails. -/
def failState : FsState := ⟨[], fun _ _ => some "cross-device link"⟩

/-- A directory listing `a.NEV`, `b.NEV` in that discovery order. -/
def swapTreeA : Node :=
  Node.dirOk [Except.ok ([97, 46, 78, 69, 86], Node.file),
    Except.ok ([98, 46, 78, 69, 86], Node.file)]

/-- The same directory discovered in the opposite order. -/
def swapTreeB : Node :=
  Node.dirOk [Except.ok ([98, 46, 78, 69, 86], Node.file),
    Except.ok ([97, 46, 78, 69, 86], Node.file)]

/-- A directory containing a symlink `x.nev` that resolves to a regular
file. -/
def linkTree : Node :=
  Node.dirOk [Except.ok ([120, 46, 110, 101, 118], Node.symlinkFile)]

/-- A directory containing a regular file named `.NEV` (a leading dot
followed by the source extension, nothing else). -/
def dotTree : Node := Node.dirOk [Except.ok (46 :: nevBytes, Node.file)]

/-! ### The claims -/

/-- C1: for every tree and extension, the file list returned by
`collect_files` contains exactly the paths under the root that are
regular files (or symlinks resolving to regular files) whose extension
case-insensitively equals the requested extension, reachable without
descending through directory symlinks, and no others; everything else is
left out. -/
theorem claim_C1 (root : FPath) (ext : Bytes) (t : Node) (q : FPath) :
    q ∈ (collect_files root ext t).files ↔ SpecCandidate root ext t q := by
  rw [mem_collect_files, mem_specFiles_iff]

/-- C2: a candidate whose computed target path exists in the executor's
filesystem state at processing time — whatever the type of the existing
entry — is processed as a pure skip: the state is untouched (no rename
attempted, the file unmoved), the skipped counter alone is bumped, a
progress note naming both display-relative paths is emitted, progress
advances once, and converted/failed are untouched. -/
theorem claim_C2 (root : FPath) (tgt : Bytes) (p : FPath) (rest : List FPath)
    (st : FsState) (acc : RunAcc) (k : FKind)
    (h : (with_extension p tgt, k) ∈ st.files) :
    runLoop root tgt (p :: rest) st acc =
      runLoop root tgt rest st
        { acc with
          skipped := acc.skipped + 1
          notes := acc.notes ++
            [PNote.skipNote (display_relative root p)
              (display_relative root (with_extension p tgt))]
          progressPos := acc.progressPos + 1 } :=
  runLoop_skip_eq root tgt p rest st acc (existsPath_of_mem h)

/-- Witness for C2 at a concrete input: the target `a.R3D` of candidate
`a.NEV` exists (as a directory) in `skipState`. -/
theorem claim_C2_witness :
    ((with_extension [[97, 46, 78, 69, 86]] r3dBytes, FKind.dirK) ∈ skipState.files) ∧
      runLoop [] r3dBytes [[[97, 46, 78, 69, 86]]] skipState zeroAcc =
        runLoop [] r3dBytes [] skipState
          { zeroAcc with
            skipped := zeroAcc.skipped + 1
            notes := zeroAcc.notes ++
              [PNote.skipNote (display_relative [] [[97, 46, 78, 69, 86]])
                (display_relative [] (with_extension [[97, 46, 78, 69, 86]] r3dBytes))]
            progressPos := zeroAcc.progressPos + 1 } :=
  ⟨by decide, claim_C2 [] r3dBytes [[97, 46, 78, 69, 86]] [] skipState zeroAcc FKind.dirK
    (by decide)⟩

/-- C3: over any candidate list, the executor gives each candidate
exactly one of the three terminal outcomes — converted plus skipped plus
failed equals the number of candidates — and advances the progress
position exactly once per candidate. -/
theorem claim_C3 (root : FPath) (tgt : Bytes) (files : List FPath) (st : FsState) :
    (runLoop root tgt files st zeroAcc).1.converted +
        (runLoop root tgt files st zeroAcc).1.skipped +
        (runLoop root tgt files st zeroAcc).1.failed.length = files.length ∧
      (runLoop root tgt files st zeroAcc).1.progressPos = files.length := by
  have h := runLoop_accounting root tgt files st zeroAcc
  simpa [zeroAcc] using h

/-- C4: the returned file list is sorted lexicographically by full path
(a total, deterministic order), and the output is independent of the
order in which directory entries were discovered: any chain of
directory-listing reorderings of the tree leaves it unchanged. -/
theorem claim_C4 (root : FPath) (ext : Bytes) (t : Node) :
    List.Sorted (· ≤ ·) (collect_files root ext t).files ∧
      ∀ t', Relation.ReflTransGen ReorderStep t t' →
        (collect_files root ext t).files = (collect_files root ext t').files :=
  ⟨collect_files_sorted root ext t, fun _ h => collect_files_reorder_eq root ext h⟩

/-- Witness for C4 at a concrete input: swapping the two entries of a
directory listing does not change the collected file list. -/
theorem claim_C4_witness :
    Relation.ReflTransGen ReorderStep swapTreeA swapTreeB ∧
      (collect_files [] nevBytes swapTreeA).files =
        (collect_files [] nevBytes swapTreeB).files :=
  have hstep : Relation.ReflTransGen ReorderStep swapTreeA swapTreeB :=
    Relation.ReflTransGen.single
      (ReorderStep.here
        (List.Perm.swap (Except.ok ([98, 46, 78, 69, 86], Node.file))
          (Except.ok ([97, 46, 78, 69, 86], Node.file)) []))
  ⟨hstep, (claim_C4 [] nevBytes swapTreeA).2 swapTreeB hstep⟩

/-- C5: `collect_files` never aborts — the warnings of a walk are
exactly one warning per reachable per-entry error (vanished entry,
unresolvable symlink, unreadable listing, per-entry iterator error),
each naming the affected path and the error, while the candidate files
are still exactly those of the whole remaining tree (siblings of a
failed entry are processed). -/
theorem claim_C5 (root : FPath) (ext : Bytes) (t : Node) :
    (∀ w, w ∈ (collect_files root ext t).warnings ↔ WarnSpec root t w) ∧
      ∀ q, q ∈ (collect_files root ext t).files ↔ SpecCandidate root ext t q := by
  constructor
  · intro w
    rw [mem_collect_warnings, mem_specWarns_iff]
  · intro q
    rw [mem_collect_files, mem_specFiles_iff]

/-- C6: a symlink resolving to a regular file with matching extension
contributes the symlink path itself to the candidate list; a walk rooted
at a symlink resolving to a directory collects nothing (no descent, even
when the resolved directory has contents); a symlink whose resolution
fails yields exactly the warning naming it, and no candidate. -/
theorem claim_C6 (ext : Bytes) :
    (∀ (root : FPath) (t : Node) (p : FPath),
        ReachesEntry root t p Node.symlinkFile → has_extension p ext = true →
          p ∈ (collect_files root ext t).files) ∧
      (∀ (p : FPath) (l : List (Bytes × Node)),
          collect_files p ext (Node.symlinkDir l) = ⟨[], []⟩) ∧
      (∀ (p : FPath) (e : String),
          collect_files p ext (Node.symlinkErr e) = ⟨[], [Warning.symlinkW p e]⟩) := by
  refine ⟨?_, ?_, ?_⟩
  · intro root t p hre hx
    rw [mem_collect_files, mem_specFiles_iff]
    exact ⟨Node.symlinkFile, hre, Or.inr rfl, hx⟩
  · intro p l
    simp [collect_files, collectLoop]
  · intro p e
    simp [collect_files, collectLoop]

/-- Witness for C6 at a concrete input: the symlink `x.nev` (resolving
to a regular file) inside directory `r` is collected by its own path. -/
theorem claim_C6_witness :
    ReachesEntry [[114]] linkTree [[114], [120, 46, 110, 101, 118]] Node.symlinkFile ∧
      has_extension [[114], [120, 46, 110, 101, 118]] nevBytes = true ∧
      [[114], [120, 46, 110, 101, 118]] ∈ (collect_files [[114]] nevBytes linkTree).files :=
  have hre : ReachesEntry [[114]] linkTree [[114], [120, 46, 110, 101, 118]] Node.symlinkFile :=
    ReachesEntry.child (List.mem_singleton.mpr rfl)
      (ReachesEntry.here ([[114]] ++ [[120, 46, 110, 101, 118]]) Node.symlinkFile)
  ⟨hre, by decide, (claim_C6 nevBytes).1 [[114]] linkTree [[114], [120, 46, 110, 101, 118]] hre
    (by decide)⟩

/-- C7: a rename failure is processed in place — the original path and
the error text are appended to the failure list, an immediate progress
note with the error is emitted, the filesystem state is unchanged (no
retry) and the loop continues with the next candidate; whenever the
configuration succeeds the process exit code is 0 no matter how many
renames fail; and a completed run reports the summary counts together
with one detail entry per recorded failure. -/
theorem claim_C7 :
    (∀ (root : FPath) (tgt : Bytes) (p : FPath) (rest : List FPath)
        (st : FsState) (acc : RunAcc) (e : String),
        existsPath st (with_extension p tgt) = false →
        st.renameErr p (with_extension p tgt) = some e →
        runLoop root tgt (p :: rest) st acc =
          runLoop root tgt rest st
            { acc with
              failed := acc.failed ++ [(p, e)]
              notes := acc.notes ++ [PNote.failNote (display_relative root p) e]
              progressPos := acc.progressPos + 1 }) ∧
      (∀ (args : List String) (env : SysEnv) (t : Node) (st : FsState) (cfg : Config),
          Config.from_env args env = Except.ok cfg →
          exitCode (mainModel args env t st) = 0) ∧
      (∀ (cfg : Config) (t : Node) (st : FsState),
          (collect_files cfg.root cfg.source_extension t).files ≠ [] →
          runModel cfg t st =
            Except.ok ⟨(collect_files cfg.root cfg.source_extension t).warnings,
              RunOutcome.completed
                ((runLoop cfg.root cfg.target_extension
                    (collect_files cfg.root cfg.source_extension t).files st
                    zeroAcc).1.converted,
                  (runLoop cfg.root cfg.target_extension
                    (collect_files cfg.root cfg.source_extension t).files st
                    zeroAcc).1.skipped,
                  (runLoop cfg.root cfg.target_extension
                    (collect_files cfg.root cfg.source_extension t).files st
                    zeroAcc).1.failed.length)
                (runLoop cfg.root cfg.target_extension
                  (collect_files cfg.root cfg.source_extension t).files st zeroAcc).1.failed
                (runLoop cfg.root cfg.target_extension
                  (collect_files cfg.root cfg.source_extension t).files st zeroAcc).1.notes
                (runLoop cfg.root cfg.target_extension
                  (collect_files cfg.root cfg.source_extension t).files st
                  zeroAcc).1.progressPos
                (runLoop cfg.root cfg.target_extension
                  (collect_files cfg.root cfg.source_extension t).files st zeroAcc).2⟩) :=
  ⟨fun root tgt p rest st acc e hex herr => runLoop_fail_eq root tgt p rest st acc e hex herr,
    fun args env t st cfg h => exitCode_of_config_ok args env t st cfg h,
    fun cfg t st h => runModel_completed cfg t st h⟩

/-- Witness for C7 at a concrete input: renaming `a.NEV` fails with a
cross-device error in `failState`; the failure is recorded and the exit
code of a successfully configured run is 0. -/
theorem claim_C7_witness :
    (existsPath failState (with_extension [[97, 46, 78, 69, 86]] r3dBytes) = false) ∧
      (failState.renameErr [[97, 46, 78, 69, 86]]
          (with_extension [[97, 46, 78, 69, 86]] r3dBytes) = some "cross-device link") ∧
      (runLoop [] r3dBytes [[[97, 46, 78, 69, 86]]] failState zeroAcc =
        runLoop [] r3dBytes [] failState
          { zeroAcc with
            failed := zeroAcc.failed ++ [([[97, 46, 78, 69, 86]], "cross-device link")]
            notes := zeroAcc.notes ++
              [PNote.failNote (display_relative [] [[97, 46, 78, 69, 86]])
                "cross-device link"]
            progressPos := zeroAcc.progressPos + 1 }) ∧
      Config.from_env [] sampleEnv = Except.ok sampleCfg ∧
      exitCode (mainModel [] sampleEnv Node.other sampleFs) = 0 :=
  have hcfg : Config.from_env [] sampleEnv = Except.ok sampleCfg := rfl
  ⟨by decide, rfl,
    claim_C7.1 [] r3dBytes [[97, 46, 78, 69, 86]] [] failState zeroAcc "cross-device link"
      (by decide) rfl,
    hcfg,
    claim_C7.2.1 [] sampleEnv Node.other sampleFs sampleCfg hcfg⟩

/-- C8: when the collector finds no candidates, the executor loop is
never entered — the run reports "no files found" naming the source
extension and the root, leaves the filesystem state untouched (zero
renames), and exits with code 0. -/
theorem claim_C8 (cfg : Config) (t : Node) (st : FsState)
    (h : (collect_files cfg.root cfg.source_extension t).files = []) :
    runModel cfg t st =
      Except.ok ⟨(collect_files cfg.root cfg.source_extension t).warnings,
        RunOutcome.noFiles cfg.source_extension cfg.root st⟩ ∧
      exitCode (MainResult.ran (runModel cfg t st)) = 0 := by
  have he := runModel_empty cfg t st h
  exact ⟨he, by simp [he, exitCode]⟩

/-- Witness for C8 at a concrete input: a root whose only entry is of
another type yields no candidates, the "no files found" outcome and
exit code 0. -/
theorem claim_C8_witness :
    ((collect_files sampleCfg.root sampleCfg.source_extension Node.other).files = []) ∧
      runModel sampleCfg Node.other sampleFs =
        Except.ok ⟨(collect_files sampleCfg.root sampleCfg.source_extension Node.other).warnings,
          RunOutcome.noFiles sampleCfg.source_extension sampleCfg.root sampleFs⟩ ∧
      exitCode (MainResult.ran (runModel sampleCfg Node.other sampleFs)) = 0 :=
  have h : (collect_files sampleCfg.root sampleCfg.source_extension Node.other).files = [] := by
    simp [collect_files, collectLoop]
  ⟨h, claim_C8 sampleCfg Node.other sampleFs h⟩

/-- C9 (as amended): supplying more than one positional argument is a
configuration error — the process reports the unexpected argument with
the usage text and exits with code 1, without reaching traversal or
rename work; an argument that is none of `--help`, `-h`, `--invert`
(including an unrecognized flag-like argument) is not rejected by the
parser but taken as the positional root path. -/
theorem claim_C9 :
    (∀ (l₁ : List String) (x : String) (l₂ : List String) (y : String) (l₃ : List String)
        (env : SysEnv) (t : Node) (st : FsState),
        (∀ a ∈ l₁, a = "--invert") → x ≠ "--help" → x ≠ "-h" → x ≠ "--invert" →
        (∀ a ∈ l₂, a = "--invert") → y ≠ "--help" → y ≠ "-h" → y ≠ "--invert" →
        mainModel (l₁ ++ x :: (l₂ ++ y :: l₃)) env t st =
            MainResult.configError ("Unexpected argument: " ++ y) usageText ∧
          exitCode (mainModel (l₁ ++ x :: (l₂ ++ y :: l₃)) env t st) = 1) ∧
      (∀ x : String, x ≠ "--help" → x ≠ "-h" → x ≠ "--invert" →
          parseArgsLoop [x] false none = Except.ok (false, some x)) := by
  constructor
  · intro l₁ x l₂ y l₃ env t st h₁ hx1 hx2 hx3 h₂ hy1 hy2 hy3
    exact mainModel_of_parse_error _ env t st _
      (parseArgsLoop_second_positional l₁ x l₂ y l₃ h₁ hx1 hx2 hx3 h₂ hy1 hy2 hy3)
  · intro x hx1 hx2 hx3
    simp [parseArgsLoop, hx1, hx2, hx3]

/-- Counterexample to C9 as stated: the unrecognized flag `--bogus` is
not a configuration error when a directory of that name exists — the
run proceeds through traversal and exits with code 0, not non-zero. -/
theorem claim_C9_counterexample :
    exitCode (mainModel ["--bogus"] sampleEnv Node.other sampleFs) = 0 := by
  have hcfg : Config.from_env ["--bogus"] sampleEnv = Except.ok ⟨[[119]], false⟩ := rfl
  have hrun := runModel_isOk ⟨[[119]], false⟩ Node.other sampleFs
  obtain ⟨rep, hrep⟩ := hrun
  simp [mainModel, hcfg, hrep, exitCode]

/-- Witness for the amended C9 at a concrete input: `r3dy a b` is
rejected with "Unexpected argument: b", usage text and exit code 1,
while the lone argument `a` is accepted as the root. -/
theorem claim_C9_witness :
    (mainModel ["a", "b"] sampleEnv Node.other sampleFs =
        MainResult.configError ("Unexpected argument: " ++ "b") usageText ∧
      exitCode (mainModel ["a", "b"] sampleEnv Node.other sampleFs) = 1) ∧
      parseArgsLoop ["a"] false none = Except.ok (false, some "a") :=
  ⟨claim_C9.1 [] "a" [] "b" [] sampleEnv Node.other sampleFs (by simp) (by decide) (by decide)
      (by decide) (by simp) (by decide) (by decide) (by decide),
    claim_C9.2 "a" (by decide) (by decide) (by decide)⟩

/-- C10: a regular file whose entire name is a leading dot followed by
the source extension (such as `.NEV`), or whose extension component is
not valid UTF-8, is never selected: extension extraction yields nothing
for a dot-name, `to_str` fails on invalid UTF-8, `has_extension` then
returns false, and no path failing `has_extension` appears in the
collected candidates. -/
theorem claim_C10 :
    (∀ (pre : FPath) (s exp : Bytes), (46 : Nat) ∉ s →
        has_extension (pre ++ [46 :: s]) exp = false) ∧
      (∀ (p : FPath) (e exp : Bytes), pathExtension p = some e → isValidUtf8 e = false →
          has_extension p exp = false) ∧
      (∀ (root : FPath) (ext : Bytes) (t : Node) (q : FPath),
          has_extension q ext = false → q ∉ (collect_files root ext t).files) :=
  ⟨fun pre s exp h => has_extension_dot_name pre exp h,
    fun p e exp h1 h2 => has_extension_invalid_utf8 p exp h1 h2,
    fun root ext t q h => not_mem_collect_of_no_ext root ext t q h⟩

/-- Witness for C10 at concrete inputs: the name `.NEV` has no
extension and is not collected even when present as a regular file, and
a name whose extension byte `0xFF` is invalid UTF-8 fails
`has_extension`. -/
theorem claim_C10_witness :
    ((46 : Nat) ∉ nevBytes) ∧
      has_extension ([] ++ [46 :: nevBytes]) nevBytes = false ∧
      (pathExtension [[97, 46, 255]] = some [255]) ∧
      (isValidUtf8 [255] = false) ∧
      has_extension [[97, 46, 255]] nevBytes = false ∧
      (has_extension [46 :: nevBytes] nevBytes = false) ∧
      [46 :: nevBytes] ∉ (collect_files [] nevBytes dotTree).files :=
  ⟨by decide,
    claim_C10.1 [] nevBytes nevBytes (by decide),
    by decide,
    by decide,
    claim_C10.2.1 [[97, 46, 255]] [255] nevBytes (by decide) (by decide),
    by decide,
    claim_C10.2.2 [] nevBytes dotTree [46 :: nevBytes] (by decide)⟩
